import Mathlib

set_option linter.all false

/-!
Shallow embedding of the process/scheduling core of the rCore-style teaching
kernel (the `os5` crate): the stride-scheduling task manager, the processor
dispatch loop, and the process-lifecycle syscalls of
`src/os5/src/syscall/process.rs`, `src/os5/src/task/manager.rs` and
`src/os5/src/task/processor.rs`.

Machine integers are modelled as `Nat`/`Int` with explicit reduction modulo
`2 ^ 64` where wrap-around matters (`usize`, `u64` and `isize` are 64-bit on
the rv64 target).  Code of the crate that is not under `src/` (the `Pass`
type of `task.rs`, `MemorySet::map`/`unmap` of the `mm` module, the loader,
and the fork/exec/spawn constructors) is modelled from the specification;
each such definition carries a doc comment starting `Modelled from the
spec:`.
-/

namespace OS5

/-- Page size of the SV39 paging configuration (`PAGE_SIZE` in `config.rs`,
standard value 4096 for this kernel family). -/
def PAGE_SIZE : Nat := 4096

/-- `usize::MAX + 1`: the modulus of 64-bit machine integers. -/
def USIZE_MOD : Nat := 2 ^ 64

/-- Rust's `as usize` cast applied to an `isize`: bit reinterpretation,
i.e. the canonical representative of the value modulo `2 ^ 64`. -/
def asUsize (i : Int) : Nat := (i % (USIZE_MOD : Int)).toNat

/-- Rust's `as u64` cast applied to an `isize` (same bit reinterpretation). -/
def asU64 (i : Int) : Nat := (i % (USIZE_MOD : Int)).toNat

/-- `VirtAddr::page_offset` of the `mm` module: the offset of an address
within its page. -/
def page_offset (a : Nat) : Nat := a % PAGE_SIZE

/-- Task status of a TCB (`TaskStatus` in `os5/src/task/task.rs`):
`UnInit`, `Ready`, `Running`, `Zombie`. -/
inductive TaskStatus where
  | UnInit
  | Ready
  | Running
  | Zombie
deriving DecidableEq, Repr

/-! ### `sys_waitpid` (src/os5/src/syscall/process.rs, lines 66-99) -/

/-- The slice of a child task control block that `sys_waitpid` inspects:
its pid (`p.getpid()`, a `usize`), whether `p.inner_exclusive_access()
.is_zombie()` holds, and its stored `exit_code`. -/
structure Child where
  pid : Nat
  zombie : Bool
  exit_code : Int
deriving DecidableEq, Repr

/-- The matching test of `sys_waitpid`:
`pid == -1 || pid as usize == p.getpid()`. -/
def waitMatch (pid : Int) (c : Child) : Bool :=
  pid == -1 || asUsize pid == c.pid

/-- `inner.children.iter().enumerate().find(|(_, p)| p.inner_exclusive_access()
.is_zombie() && (pid == -1 || pid as usize == p.getpid()))`. -/
def findZombieChild (pid : Int) : List Child → Option (Nat × Child)
  | [] => none
  | c :: rest =>
    if c.zombie && waitMatch pid c then some (0, c)
    else (findZombieChild pid rest).map fun p => (p.1 + 1, p.2)

/-- The observable outcome of one `sys_waitpid` call: the returned `isize`,
the caller's `children` vector afterwards, and the exit code written through
`exit_code_ptr` (`none` when nothing is written). -/
structure WaitOutcome where
  ret : Int
  children : List Child
  written : Option Int
deriving DecidableEq, Repr

/-- `sys_waitpid` (src/os5/src/syscall/process.rs): if no child satisfies
`pid == -1 || pid as usize == p.getpid()`, return `-1`; otherwise find the
first matching Zombie child: if found, remove it from `children` (the
`assert_eq!(Arc::strong_count(&child), 1)` at this point is the subject of
the reference-counting model below), write its exit code through the user
pointer and return its pid; if none is a Zombie yet, return `-2`. -/
def sys_waitpid (pid : Int) (children : List Child) : WaitOutcome :=
  if ¬ children.any (waitMatch pid) then
    ⟨-1, children, none⟩
  else
    match findZombieChild pid children with
    | some (idx, child) =>
        ⟨(child.pid : Int), children.eraseIdx idx, some child.exit_code⟩
    | none => ⟨-2, children, none⟩

/-! ### Task control block as seen by the scheduler and syscalls -/

/-- Provenance of a task's `memory_set`, distinguishing an address space
built directly from a program image (`MemorySet::from_elf`, used by `exec`
and `spawn`) from a page-for-page copy of an existing one
(`MemorySet::from_existed_user`, used by `fork`).  The page-table contents
themselves are the opaque `mm` collaborator. -/
inductive MemProvenance where
  | fromImage (data : Nat)
  | copyOf (m : MemProvenance)
deriving DecidableEq, Repr

/-- The slice of `TaskControlBlock` (together with its inner, exclusively
accessed state) that the claims under verification mention: pid, status,
the 32 saved user registers `x` of the trap context, scheduling metadata
(`prio`, `pass`, `started`, `start_time`) and the address-space provenance. -/
structure TCB where
  pid : Nat
  task_status : TaskStatus
  trap_x : List Nat
  prio : Nat
  pass : Nat
  started : Bool
  start_time : Nat
  memory : MemProvenance
deriving DecidableEq, Repr

/-! ### `sys_set_priority` (src/os5/src/syscall/process.rs, lines 126-132) -/

/-- `set_current_task_prio` (src/os5/src/task/processor.rs):
`current_task().unwrap().inner_exclusive_access().prio = prio`. -/
def set_current_task_prio (t : TCB) (prio : Nat) : TCB :=
  { t with prio := prio }

/-- `sys_set_priority` (src/os5/src/syscall/process.rs): rejects
`_prio <= 1` with `-1`; otherwise stores `_prio as u64` as the current
task's priority and returns `_prio`.  The pair is (returned isize, current
task afterwards). -/
def sys_set_priority (t : TCB) (prio : Int) : Int × TCB :=
  if prio ≤ 1 then (-1, t)
  else (prio, set_current_task_prio t (asU64 prio))

/-! ### `sys_mmap` / `sys_munmap` (src/os5/src/syscall/process.rs, 135-155) -/

/-- One mapped virtual region of an address space: the half-open address
range `[start, stop)` with its read/write/execute permission bits. -/
structure Region where
  start : Nat
  stop : Nat
  perm : Nat
deriving DecidableEq, Repr

/-- Modelled from the spec: the `MemorySet` of `os5/src/mm` is not under
`src/`; per the spec it owns "an ordered set of non-overlapping mapped
virtual regions, each region tagged with a permission set". -/
structure MemorySet where
  regions : List Region
deriving DecidableEq, Repr

/-- Whether an address range `[s, e)` intersects a region. -/
def Region.overlapsRange (r : Region) (s e : Nat) : Bool :=
  s < r.stop && r.start < e

/-- Whether an address is covered by some region of the set. -/
def MemorySet.covers (ms : MemorySet) (a : Nat) : Bool :=
  ms.regions.any fun r => r.start ≤ a && a < r.stop

/-- The part of a region lying outside the range `[s, e)` (used when a
range is unmapped from the middle of a region). -/
def Region.cutRange (r : Region) (s e : Nat) : List Region :=
  (if r.start < min r.stop s then [⟨r.start, min r.stop s, r.perm⟩] else []) ++
  (if max r.start e < r.stop then [⟨max r.start e, r.stop, r.perm⟩] else [])

/-- Modelled from the spec: `MemorySet::map` (os5/src/mm, not under `src/`).
Per spec section 4.4: both `start` and `end` must be page-aligned; the
permission bits must be non-zero and contain only the three
read/write/execute bits; the requested range must not overlap any region
already mapped; each failure is reported as `-1` with the set unchanged;
on success the region is recorded and `0` returned. -/
def MemorySet.map (ms : MemorySet) (s e : Nat) (perm : Nat) : Int × MemorySet :=
  if ¬ (page_offset s == 0 && page_offset e == 0) then (-1, ms)
  else if perm == 0 || perm &&& 7 != perm then (-1, ms)
  else if ms.regions.any fun r => r.overlapsRange s e then (-1, ms)
  else (0, ⟨ms.regions ++ [⟨s, e, perm⟩]⟩)

/-- Modelled from the spec: `MemorySet::unmap` (os5/src/mm, not under
`src/`).  Per spec section 4.4: `start`/`end` must be page-aligned and every
page of the range must currently be mapped (a partially-or-wholly-unmapped
range is an error `-1`, all-or-nothing); on success the range is removed
from the region records and `0` returned. -/
def MemorySet.unmap (ms : MemorySet) (s e : Nat) : Int × MemorySet :=
  if ¬ (page_offset s == 0 && page_offset e == 0) then (-1, ms)
  else if ¬ ((List.range ((e - s) / PAGE_SIZE)).all fun i =>
      ms.covers (s + i * PAGE_SIZE)) then (-1, ms)
  else (0, ⟨ms.regions.flatMap fun r => r.cutRange s e⟩)

/-- `sys_mmap` (src/os5/src/syscall/process.rs, lines 135-146): reject a
start address with non-zero page offset; reject `_port` when `_port & 7` is
zero or differs from `_port` (a bit outside R/W/X is set); otherwise call
`mmap(start_va, end_va, port)` on the current task's memory set with
`end_va = _start + _len`. -/
def sys_mmap (ms : MemorySet) (start len port : Nat) : Int × MemorySet :=
  if page_offset start ≠ 0 then (-1, ms)
  else
    let p := port &&& 7
    if p == 0 || p != port then (-1, ms)
    else ms.map start (start + len) p

/-- `sys_munmap` (src/os5/src/syscall/process.rs, lines 148-155): reject a
start address with non-zero page offset; otherwise call
`munmap(start_va, end_va)` with `end_va = _start + _len`. -/
def sys_munmap (ms : MemorySet) (start len : Nat) : Int × MemorySet :=
  if page_offset start ≠ 0 then (-1, ms)
  else ms.unmap start (start + len)

/-! ### The ready queue (src/os5/src/task/manager.rs) -/

/-- Modelled from the spec: the `Pass` wrapper and its `Ord` instance live
in os5/src/task/task.rs, which is not under `src/`.  Spec section 4.2 says
the ready queue is "ordered by ascending pass (lowest pass scheduled
next)"; since `alloc::collections::BinaryHeap` is a max-heap, `Pass`
compares as the reverse of the numeric order on the underlying u64 value,
so that the heap's greatest element is the task with the least pass. -/
def Pass.lt (a b : Nat) : Bool := b < a

/-- `impl Ord for HeapElement` (src/os5/src/task/manager.rs, lines 16-23):
two heap elements compare exactly as their tasks' `pass` values compare. -/
def heapElemLt (a b : TCB) : Bool := Pass.lt a.pass b.pass

/-- `TaskManager` (src/os5/src/task/manager.rs): the ready queue.
`BinaryHeap<HeapElement>` is modelled by its documented contract: a
multiset of tasks (a list, most recent push first) from which `pop`
removes and returns a greatest element in the `HeapElement` order.
Tie-breaking among equal elements is unspecified by the heap's contract
(the spec notes this); this model takes the earliest greatest element. -/
structure TaskManager where
  ready_queue : List TCB
deriving DecidableEq, Repr

/-- `TaskManager::add`: `self.ready_queue.push(HeapElement(task))`. -/
def TaskManager.add (m : TaskManager) (t : TCB) : TaskManager :=
  ⟨t :: m.ready_queue⟩

/-- `BinaryHeap::pop` on the list model: remove and return a greatest
element in the `HeapElement` order (`none` on the empty heap). -/
def popGreatest : List TCB → Option (TCB × List TCB)
  | [] => none
  | t :: rest =>
    match popGreatest rest with
    | none => some (t, [])
    | some (m, rest') =>
        if heapElemLt t m then some (m, t :: rest') else some (t, rest)

/-- `TaskManager::fetch`: `self.ready_queue.pop().map(|e| e.0)`; also
returns the remaining queue. -/
def TaskManager.fetch (m : TaskManager) : Option (TCB × TaskManager) :=
  (popGreatest m.ready_queue).map fun p => (p.1, ⟨p.2⟩)

/-! ### fork / exec / spawn (src/os5/src/syscall/process.rs) -/

/-- Modelled from the spec: the loader's `get_app_data_by_name`
(os5/src/loader.rs, not under `src/`): the filesystem collaborator
"provides named-file byte blobs to the loader"; the lookup yields the
program image for a name, or `None` when the name cannot be located.
Images are opaque blob identifiers here. -/
structure Loader where
  apps : List (String × Nat)
deriving DecidableEq, Repr

/-- Modelled from the spec: name lookup among the embedded apps. -/
def get_app_data_by_name (ld : Loader) (name : String) : Option Nat :=
  (ld.apps.find? fun p => p.1 == name).map Prod.snd

/-- Modelled from the spec: `TaskControlBlock::fork`
(os5/src/task/task.rs, not under `src/`).  Spec sections 3 and 4.1:
duplicates the caller's address space page-for-page (copy, not share),
fresh pid, status Ready, scheduling metadata inherited, not yet
dispatched; the saved trap context is part of the copied state (the
child's registers equal the parent's until `sys_fork` overwrites x10). -/
def TCB.fork (parent : TCB) (newPid : Nat) : TCB :=
  { parent with
    pid := newPid
    task_status := .Ready
    started := false
    start_time := 0
    memory := .copyOf parent.memory }

/-- Modelled from the spec: `TaskControlBlock::exec`
(os5/src/task/task.rs, not under `src/`).  Spec section 4.1: "replaces
address space and entry context of the current task in place"; pid and
parent/child links unchanged. -/
def TCB.exec (t : TCB) (data : Nat) : TCB :=
  { t with
    memory := .fromImage data
    trap_x := List.replicate 32 0 }

/-- Modelled from the spec: `TaskControlBlock::spawn`
(os5/src/task/task.rs, not under `src/`).  Spec section 4.1: "constructs
a TCB directly from program_image (no address-space copy)", status Ready,
default priority 16, fresh entry context. -/
def TCB.spawn (_parent : TCB) (data : Nat) (newPid : Nat) : TCB :=
  { pid := newPid
    task_status := .Ready
    trap_x := List.replicate 32 0
    prio := 16
    pass := 0
    started := false
    start_time := 0
    memory := .fromImage data }

/-- The kernel state the lifecycle syscalls touch: the current task
(`current_task().unwrap()`), the scheduler's ready queue, and the pid
allocator's next fresh pid (`pid_alloc` is a free-list/counter; only
freshness matters here). -/
structure Kernel where
  current : TCB
  manager : TaskManager
  next_pid : Nat
deriving DecidableEq, Repr

/-- `sys_fork` (src/os5/src/syscall/process.rs, lines 37-49): fork the
current task, overwrite the child's trap-context register `x[10]` (the
return-value register a0) with 0, `add_task` the child to the scheduler,
and return the child's pid. -/
def sys_fork (k : Kernel) : Int × Kernel :=
  let new_task := k.current.fork k.next_pid
  let new_pid := new_task.pid
  let new_task := { new_task with trap_x := new_task.trap_x.set 10 0 }
  ((new_pid : Int),
   { k with manager := k.manager.add new_task, next_pid := k.next_pid + 1 })

/-- `sys_exec` (src/os5/src/syscall/process.rs, lines 52-62): look the
path up with `get_app_data_by_name`; on success `task.exec(data)` replaces
the current task in place and 0 is returned; otherwise return -1. -/
def sys_exec (ld : Loader) (k : Kernel) (path : String) : Int × Kernel :=
  match get_app_data_by_name ld path with
  | some data => (0, { k with current := k.current.exec data })
  | none => (-1, k)

/-- `sys_spawn` (src/os5/src/syscall/process.rs, lines 160-173): look the
path up with `get_app_data_by_name`; on success build a new child TCB with
`task.spawn(data)`, `add_task` it, and return its pid; otherwise -1. -/
def sys_spawn (ld : Loader) (k : Kernel) (path : String) : Int × Kernel :=
  match get_app_data_by_name ld path with
  | some data =>
    let new_task := k.current.spawn data k.next_pid
    let new_pid := new_task.pid
    ((new_pid : Int),
     { k with manager := k.manager.add new_task, next_pid := k.next_pid + 1 })
  | none => (-1, k)

/-! ### The dispatch loop (src/os5/src/task/processor.rs, lines 54-79) -/

/-- Modelled from the spec: `BIG_STRIDE` (os5/src/task/task.rs, not under
`src/`): "a fixed large constant" of the stride algorithm.  Its exact
value does not matter to the claims. -/
def BIG_STRIDE : Nat := 2 ^ 32

/-- Modelled from the spec: `Pass::stride` (os5/src/task/task.rs, not
under `src/`).  Spec section 4.2: "on every dispatch, the chosen task's
pass is incremented by a fixed large constant divided by its priority";
the u64 accumulator wraps. -/
def Pass.stride (pass prio : Nat) : Nat :=
  (pass + BIG_STRIDE / prio) % USIZE_MOD

/-- `Processor` (src/os5/src/task/processor.rs): the per-core current-task
slot (the idle context is the opaque context-switch collaborator). -/
structure Processor where
  current : Option TCB
deriving DecidableEq, Repr

/-- One iteration of the `run_tasks` loop (src/os5/src/task/processor.rs,
lines 54-79), up to the `__switch` into the task (the context swap itself
is the opaque collaborator): fetch a task from the manager; if there is
none the loop spins (state unchanged); otherwise mark it Running, stamp
`start_time := now` and set `started` only when `started` was false, apply
the stride increment to `pass` using its `prio`, and install it as
`current`, in this order, before switching. -/
def run_tasks_step (p : Processor) (m : TaskManager) (now : Nat) :
    Processor × TaskManager :=
  match m.fetch with
  | none => (p, m)
  | some (task, m') =>
    let task := { task with task_status := .Running }
    let task :=
      if ¬ task.started then { task with start_time := now, started := true }
      else task
    let task := { task with pass := Pass.stride task.pass task.prio }
    (⟨some task⟩, m')

/-! ### Owning-reference model for the reap assertion

`sys_waitpid` asserts `Arc::strong_count(&child) == 1` right after removing
a Zombie child from `children`.  The owning (`Arc`) references to a TCB in
this kernel live in exactly three places: some parent's `children` vector,
the scheduler's ready queue, and the processor's `current` slot (transient
clones made inside a single syscall are dropped before the assertion
runs).  The lifecycle transitions that move these references around —
`exit_current_and_run_next`, `suspend_current_and_run_next` and the task
constructors live in os5/src/task (not under `src/`) and are modelled from
spec sections 4.1, 4.3 and 4.5.  Tasks are identified by pid; `tasks` is
the ghost registry of every TCB ever created, recording its status and its
`children` vector (emptied when the TCB is destroyed, since destruction
releases the references it held). -/

/-- A task as the reference-counting model sees it. -/
structure KTask where
  pid : Nat
  status : TaskStatus
  children : List Nat
deriving DecidableEq, Repr

/-- Whole-system state of the reference-counting model. -/
structure Sys where
  tasks : List KTask
  ready : List Nat
  cur : Option Nat
  next_pid : Nat
deriving DecidableEq, Repr

/-- The registry entry of pid `p`. -/
def Sys.taskOf (s : Sys) (p : Nat) : Option KTask :=
  s.tasks.find? fun t => t.pid == p

/-- The status of pid `p`, when it exists. -/
def Sys.statusOf (s : Sys) (p : Nat) : Option TaskStatus :=
  (s.taskOf p).map KTask.status

/-- Update the registry entry of pid `p` in place. -/
def Sys.updTask (s : Sys) (p : Nat) (f : KTask → KTask) : Sys :=
  { s with tasks := s.tasks.map fun t => if t.pid == p then f t else t }

/-- How many owning references to pid `p` are held in `children` vectors. -/
def childrenOcc (s : Sys) (p : Nat) : Nat :=
  (s.tasks.map fun t => t.children.count p).sum

/-- The owning reference held by the processor's `current` slot. -/
def curOcc (s : Sys) (p : Nat) : Nat :=
  if s.cur = some p then 1 else 0

/-- `Arc::strong_count` of pid `p`'s TCB in this model: references held in
`children` vectors, in the ready queue, and in the `current` slot. -/
def strongCount (s : Sys) (p : Nat) : Nat :=
  childrenOcc s p + s.ready.count p + curOcc s p

/-- Modelled from the spec (section 4.1): task creation by `sys_fork` or
`sys_spawn`: a fresh child TCB (status Ready, no children of its own) is
linked into the current task's `children` and pushed onto the ready
queue — two owning references. -/
def Sys.spawnChild (s : Sys) : Option Sys :=
  match s.cur with
  | none => none
  | some pp =>
    let s1 := s.updTask pp fun t => { t with children := t.children ++ [s.next_pid] }
    some { s1 with
           tasks := s1.tasks ++ [⟨s.next_pid, .Ready, []⟩]
           ready := s1.ready ++ [s.next_pid]
           next_pid := s.next_pid + 1 }

/-- The dispatch step of `run_tasks` (src/os5/src/task/processor.rs): when
the processor is idle, the element the heap yields (index `i` abstracts
the heap's choice, which is irrelevant to reference counts) moves from the
ready queue into the `current` slot and is marked Running. -/
def Sys.dispatch (s : Sys) (i : Nat) : Option Sys :=
  match s.cur with
  | some _ => none
  | none =>
    match s.ready[i]? with
    | none => none
    | some p =>
      some { (s.updTask p fun t => { t with status := .Running }) with
             ready := s.ready.eraseIdx i
             cur := some p }

/-- Modelled from the spec (section 4.5): `suspend_current_and_run_next`
(voluntary yield / preemption): detach the current task, mark it Ready,
re-enqueue it. -/
def Sys.yieldCur (s : Sys) : Option Sys :=
  match s.cur with
  | none => none
  | some p =>
    some { (s.updTask p fun t => { t with status := .Ready }) with
           ready := s.ready ++ [p]
           cur := none }

/-- Modelled from the spec (section 4.5): `exit_current_and_run_next`:
detach the current task (dropping the processor's owning reference), mark
it Zombie; its children are not re-parented. -/
def Sys.exitCur (s : Sys) : Option Sys :=
  match s.cur with
  | none => none
  | some p =>
    some { (s.updTask p fun t => { t with status := .Zombie }) with
           cur := none }

/-- The reap step of `sys_waitpid` (src/os5/src/syscall/process.rs): the
current task removes a Zombie child `c` from its `children` vector;
dropping that last `Arc` destroys the child's TCB, which in turn releases
the owning references the child held on its own children (modelled by
emptying the destroyed TCB's `children`). -/
def Sys.reap (s : Sys) (c : Nat) : Option Sys :=
  match s.cur with
  | none => none
  | some pp =>
    match s.taskOf pp with
    | none => none
    | some pt =>
      if c ∈ pt.children ∧ s.statusOf c = some .Zombie then
        some ((s.updTask pp fun t => { t with children := t.children.erase c }).updTask
                c fun t => { t with children := [] })
      else none

/-- One lifecycle transition of the reference-counting model. -/
inductive SysStep : Sys → Sys → Prop where
  | spawn : ∀ s s', s.spawnChild = some s' → SysStep s s'
  | dispatch : ∀ s i s', s.dispatch i = some s' → SysStep s s'
  | yieldStep : ∀ s s', s.yieldCur = some s' → SysStep s s'
  | exitStep : ∀ s s', s.exitCur = some s' → SysStep s s'
  | reapStep : ∀ s c s', s.reap c = some s' → SysStep s s'

/-- The boot state: the root task (pid 0) is running, nothing else exists. -/
def initSys : Sys :=
  { tasks := [⟨0, .Running, []⟩], ready := [], cur := some 0, next_pid := 1 }

/-- States the kernel can actually be in. -/
def SysReachable (s : Sys) : Prop :=
  Relation.ReflTransGen SysStep initSys s

/-- The inductive invariant of the reference-counting model. -/
structure SysInv (s : Sys) : Prop where
  nodupPids : (s.tasks.map KTask.pid).Nodup
  fresh : ∀ t ∈ s.tasks, t.pid < s.next_pid
  childFresh : ∀ t ∈ s.tasks, ∀ c ∈ t.children, c < s.next_pid
  childOnce : ∀ p, childrenOcc s p ≤ 1
  readyOnce : ∀ p, s.ready.count p ≤ 1
  readyStatus : ∀ p ∈ s.ready, s.statusOf p = some .Ready
  curStatus : ∀ p, s.cur = some p → s.statusOf p = some .Running

/-- A sample task used by the concrete witnesses below. -/
def sampleTCB (pid pass : Nat) : TCB :=
  ⟨pid, .Ready, List.replicate 32 0, 16, pass, false, 0, .fromImage 0⟩

/-! ## Theorems -/

/-- Helper: `pid as usize` of a negative `isize` is at least `2 ^ 63`. -/
theorem asUsize_neg_ge (pid : Int) (hlo : -(2 ^ 63) ≤ pid) (hneg : pid < 0) :
    2 ^ 63 ≤ asUsize pid := by
  unfold asUsize USIZE_MOD
  push_cast
  omega

/-- Helper: `pid as usize` of a small non-negative `isize` is `pid.toNat`. -/
theorem asUsize_nonneg (pid : Int) (h0 : 0 ≤ pid) (hhi : pid < 2 ^ 63) :
    asUsize pid = pid.toNat := by
  unfold asUsize USIZE_MOD
  push_cast
  omega

/-- Helper: within the machine integer ranges, the matching test of
`sys_waitpid` agrees with "pid is the any sentinel -1, or pid equals the
child's pid". -/
theorem waitMatch_eq (pid : Int) (c : Child) (hlo : -(2 ^ 63) ≤ pid)
    (hhi : pid < 2 ^ 63) (hc : c.pid < 2 ^ 63) :
    waitMatch pid c = true ↔ (pid = -1 ∨ pid = (c.pid : Int)) := by
  unfold waitMatch
  rcases lt_trichotomy pid (-1) with h | h | h
  · have hne : (pid == -1) = false := by simp; omega
    have hge := asUsize_neg_ge pid hlo (by omega)
    have hne2 : (asUsize pid == c.pid) = false := by
      simp
      omega
    simp [hne, hne2]
    constructor
    · omega
    · intro h'
      have : (0 : Int) ≤ (c.pid : Int) := by positivity
      omega
  · simp [h]
  · rcases lt_or_le pid 0 with h0 | h0
    · have : pid = -1 ∨ pid = (c.pid : Int) ↔ False := by
        constructor
        · intro h'
          rcases h' with h' | h'
          · omega
          · have : (0 : Int) ≤ (c.pid : Int) := by positivity
            omega
        · exact False.elim
      rw [this]
      have hne : (pid == -1) = false := by simp; omega
      have hge := asUsize_neg_ge pid hlo h0
      have hne2 : (asUsize pid == c.pid) = false := by simp; omega
      simp [hne, hne2]
    · rw [asUsize_nonneg pid h0 hhi]
      simp
      omega

/-- `C10`: For `pid < -1` the unsigned reinterpretation makes the match
test fail for every child, so `sys_waitpid` returns -1 and changes
nothing. -/
theorem sys_waitpid_negative_pid (pid : Int) (children : List Child)
    (hlo : -(2 ^ 63) ≤ pid) (hneg : pid < -1)
    (hpids : ∀ c ∈ children, c.pid < 2 ^ 63) :
    sys_waitpid pid children = ⟨-1, children, none⟩ := by
  have hany : children.any (waitMatch pid) = false := by
    rw [List.any_eq_false]
    intro c hc
    rw [Bool.not_eq_true]
    rw [Bool.eq_false_iff]
    intro hm
    rw [waitMatch_eq pid c hlo (by omega) (hpids c hc)] at hm
    rcases hm with hm | hm
    · omega
    · have : (0 : Int) ≤ (c.pid : Int) := by positivity
      omega
  unfold sys_waitpid
  rw [if_pos]
  simp [hany]

theorem sys_waitpid_negative_pid_witness :
    sys_waitpid (-5) [⟨3, true, 9⟩] = ⟨-1, [⟨3, true, 9⟩], none⟩ :=
  sys_waitpid_negative_pid (-5) [⟨3, true, 9⟩] (by decide) (by decide)
    (by decide)

/-- Helper: the enumerate-and-find of `sys_waitpid` yields `none` exactly
when no child is simultaneously a Zombie and a match. -/
theorem findZombieChild_eq_none (pid : Int) (l : List Child) :
    findZombieChild pid l = none ↔
      ∀ c ∈ l, ¬(c.zombie = true ∧ waitMatch pid c = true) := by
  induction l with
  | nil => simp [findZombieChild]
  | cons d rest ih =>
    by_cases hd : (d.zombie && waitMatch pid d) = true
    · rw [findZombieChild, if_pos hd]
      simp only [Bool.and_eq_true] at hd
      simp [hd]
    · rw [findZombieChild, if_neg hd]
      simp only [Bool.and_eq_true] at hd
      rw [Option.map_eq_none']
      rw [ih]
      constructor
      · intro h c hc
        rw [List.mem_cons] at hc
        rcases hc with hc | hc
        · subst hc
          tauto
        · exact h c hc
      · intro h c hc
        exact h c (List.mem_cons_of_mem _ hc)

/-- Helper: what a successful enumerate-and-find of `sys_waitpid` yields:
the index is in range and points at a matching Zombie child. -/
theorem findZombieChild_some (pid : Int) (l : List Child) (i : Nat) (c : Child)
    (h : findZombieChild pid l = some (i, c)) :
    ∃ hi : i < l.length,
      l.get ⟨i, hi⟩ = c ∧ c.zombie = true ∧ waitMatch pid c = true := by
  induction l generalizing i with
  | nil => simp [findZombieChild] at h
  | cons d rest ih =>
    by_cases hd : (d.zombie && waitMatch pid d) = true
    · rw [findZombieChild, if_pos hd] at h
      simp only [Option.some.injEq, Prod.mk.injEq] at h
      obtain ⟨hi, hc⟩ := h
      subst hi
      subst hc
      simp only [Bool.and_eq_true] at hd
      exact ⟨Nat.succ_pos _, rfl, hd.1, hd.2⟩
    · rw [findZombieChild, if_neg hd] at h
      cases hr : findZombieChild pid rest with
      | none => rw [hr] at h; simp at h
      | some p =>
        obtain ⟨j, c'⟩ := p
        rw [hr] at h
        simp only [Option.map_some', Option.some.injEq, Prod.mk.injEq] at h
        obtain ⟨hi, hc⟩ := h
        subst hc
        obtain ⟨hj, hget, hz, hm⟩ := ih j hr
        subst hi
        refine ⟨Nat.succ_lt_succ hj, ?_, hz, hm⟩
        simpa using hget

/-- `C2`: the three outcomes of `sys_waitpid`: no matching child gives -1
and changes nothing; matching children none of which is a Zombie give -2
and change nothing; a matching Zombie child is removed from `children`,
its exit code is written through the out pointer, and its pid returned. -/
theorem sys_waitpid_spec (pid : Int) (children : List Child)
    (hlo : -(2 ^ 63) ≤ pid) (hhi : pid < 2 ^ 63)
    (hpids : ∀ c ∈ children, c.pid < 2 ^ 63) :
    ((∀ c ∈ children, ¬(pid = -1 ∨ pid = (c.pid : Int))) →
        sys_waitpid pid children = ⟨-1, children, none⟩) ∧
    ((∃ c ∈ children, pid = -1 ∨ pid = (c.pid : Int)) →
     (∀ c ∈ children, (pid = -1 ∨ pid = (c.pid : Int)) → c.zombie = false) →
        sys_waitpid pid children = ⟨-2, children, none⟩) ∧
    ((∃ c ∈ children, (pid = -1 ∨ pid = (c.pid : Int)) ∧ c.zombie = true) →
      ∃ i : Fin children.length,
        (children.get i).zombie = true ∧
        (pid = -1 ∨ pid = ((children.get i).pid : Int)) ∧
        sys_waitpid pid children =
          ⟨((children.get i).pid : Int), children.eraseIdx i.val,
           some (children.get i).exit_code⟩) := by
  refine ⟨?_, ?_, ?_⟩
  · intro h
    have hany : children.any (waitMatch pid) = false := by
      rw [List.any_eq_false]
      intro c hc
      rw [Bool.not_eq_true, Bool.eq_false_iff]
      intro hm
      exact h c hc ((waitMatch_eq pid c hlo hhi (hpids c hc)).mp hm)
    unfold sys_waitpid
    rw [if_pos]
    simp [hany]
  · intro hex hnz
    obtain ⟨c, hc, hm⟩ := hex
    have hany : children.any (waitMatch pid) = true := by
      rw [List.any_eq_true]
      exact ⟨c, hc, (waitMatch_eq pid c hlo hhi (hpids c hc)).mpr hm⟩
    have hfind : findZombieChild pid children = none := by
      rw [findZombieChild_eq_none]
      intro d hd hcontra
      have hmd := (waitMatch_eq pid d hlo hhi (hpids d hd)).mp hcontra.2
      have := hnz d hd hmd
      rw [this] at hcontra
      exact Bool.false_ne_true hcontra.1
    unfold sys_waitpid
    rw [if_neg (by simp [hany])]
    rw [hfind]
  · intro hex
    obtain ⟨c, hc, hm, hz⟩ := hex
    have hany : children.any (waitMatch pid) = true := by
      rw [List.any_eq_true]
      exact ⟨c, hc, (waitMatch_eq pid c hlo hhi (hpids c hc)).mpr hm⟩
    cases hfind : findZombieChild pid children with
    | none =>
      exfalso
      rw [findZombieChild_eq_none] at hfind
      exact hfind c hc ⟨hz, (waitMatch_eq pid c hlo hhi (hpids c hc)).mpr hm⟩
    | some p =>
      obtain ⟨i, d⟩ := p
      obtain ⟨hi, hget, hdz, hdm⟩ := findZombieChild_some pid children i d hfind
      refine ⟨⟨i, hi⟩, ?_, ?_, ?_⟩
      · rw [hget]; exact hdz
      · rw [hget]
        exact (waitMatch_eq pid d hlo hhi
          (hpids d (hget ▸ List.get_mem children i hi))).mp hdm
      · unfold sys_waitpid
        rw [if_neg (by simp [hany])]
        rw [hfind]
        rw [hget]

theorem sys_waitpid_spec_witness :
    sys_waitpid 7 [⟨5, true, 3⟩, ⟨7, false, 0⟩] =
      ⟨-2, [⟨5, true, 3⟩, ⟨7, false, 0⟩], none⟩ :=
  (sys_waitpid_spec 7 [⟨5, true, 3⟩, ⟨7, false, 0⟩] (by decide) (by decide)
      (by decide)).2.1
    ⟨⟨7, false, 0⟩, by simp, Or.inr (by decide)⟩
    (by decide)

/-- `C6`: `sys_set_priority` returns -1 and leaves the stored priority
unchanged for any priority at most 1; for a priority of at least 2 it
stores that priority on the current task and returns it. -/
theorem sys_set_priority_spec (t : TCB) (p : Int) :
    (p ≤ 1 → sys_set_priority t p = (-1, t)) ∧
    (2 ≤ p → p < 2 ^ 63 →
      sys_set_priority t p = (p, { t with prio := p.toNat }) ∧
      (sys_set_priority t p).2.prio = p.toNat ∧
      (sys_set_priority t p).1 = p) := by
  constructor
  · intro h
    unfold sys_set_priority
    rw [if_pos h]
  · intro h2 hhi
    have hnot : ¬ p ≤ 1 := by omega
    have hcast : asU64 p = p.toNat := by
      unfold asU64 USIZE_MOD
      push_cast
      omega
    unfold sys_set_priority set_current_task_prio
    rw [if_neg hnot, hcast]
    exact ⟨rfl, rfl, rfl⟩

theorem sys_set_priority_spec_witness :
    sys_set_priority (sampleTCB 1 0) 1 = (-1, sampleTCB 1 0) ∧
    sys_set_priority (sampleTCB 1 0) 5 =
      (5, { sampleTCB 1 0 with prio := 5 }) :=
  ⟨(sys_set_priority_spec (sampleTCB 1 0) 1).1 (by decide),
   ((sys_set_priority_spec (sampleTCB 1 0) 5).2 (by decide) (by decide)).1⟩

/-- `C4`: `sys_mmap` returns -1 and performs no mapping when the start is
not page-aligned, when the permission bits are zero, or when a bit outside
the low three read/write/execute bits is set; `sys_munmap` returns -1 and
performs no unmapping when the start is not page-aligned. -/
theorem sys_mmap_munmap_guards (ms : MemorySet) (start len port : Nat) :
    (page_offset start ≠ 0 → sys_mmap ms start len port = (-1, ms)) ∧
    (port = 0 → sys_mmap ms start len port = (-1, ms)) ∧
    (port &&& 7 ≠ port → sys_mmap ms start len port = (-1, ms)) ∧
    (page_offset start ≠ 0 → sys_munmap ms start len = (-1, ms)) := by
  refine ⟨fun h => ?_, fun h => ?_, fun h => ?_, fun h => ?_⟩
  · unfold sys_mmap
    rw [if_pos h]
  · subst h
    unfold sys_mmap
    by_cases ha : page_offset start ≠ 0
    · rw [if_pos ha]
    · rw [if_neg ha]
      simp
  · unfold sys_mmap
    by_cases ha : page_offset start ≠ 0
    · rw [if_pos ha]
    · rw [if_neg ha]
      have : (port &&& 7 != port) = true := by
        simp [h]
      simp only [this, Bool.or_true, if_pos]
  · unfold sys_munmap
    rw [if_pos h]

theorem sys_mmap_munmap_guards_witness :
    sys_mmap ⟨[]⟩ 1 4096 1 = (-1, ⟨[]⟩) ∧
    sys_mmap ⟨[]⟩ 4096 4096 0 = (-1, ⟨[]⟩) ∧
    sys_mmap ⟨[]⟩ 4096 4096 9 = (-1, ⟨[]⟩) ∧
    sys_munmap ⟨[]⟩ 1 4096 = (-1, ⟨[]⟩) :=
  ⟨(sys_mmap_munmap_guards ⟨[]⟩ 1 4096 1).1 (by decide),
   (sys_mmap_munmap_guards ⟨[]⟩ 4096 4096 0).2.1 rfl,
   (sys_mmap_munmap_guards ⟨[]⟩ 4096 4096 9).2.2.1 (by decide),
   (sys_mmap_munmap_guards ⟨[]⟩ 1 4096 1).2.2.2 (by decide)⟩

/-- `C5`: a request whose end address `start + len` is not page-aligned is
rejected with -1 by both `sys_mmap` and `sys_munmap` and changes no
mapping (the end-alignment check lives in the spec-modelled
`MemorySet::map`/`unmap`). -/
theorem sys_mmap_munmap_end_alignment (ms : MemorySet) (start len port : Nat)
    (hend : page_offset (start + len) ≠ 0) :
    sys_mmap ms start len port = (-1, ms) ∧
    sys_munmap ms start len = (-1, ms) := by
  have hb : (page_offset (start + len) == 0) = false := by
    simp [hend]
  constructor
  · unfold sys_mmap
    by_cases ha : page_offset start ≠ 0
    · rw [if_pos ha]
    · rw [if_neg ha]
      by_cases hp : ((port &&& 7) == 0 || (port &&& 7) != port) = true
      · simp only [hp, if_pos]
      · simp only [hp, if_neg, Bool.false_eq_true, not_false_iff]
        unfold MemorySet.map
        rw [if_pos (by simp [hb])]
  · unfold sys_munmap
    by_cases ha : page_offset start ≠ 0
    · rw [if_pos ha]
    · rw [if_neg ha]
      unfold MemorySet.unmap
      rw [if_pos (by simp [hb])]

theorem sys_mmap_munmap_end_alignment_witness :
    sys_mmap ⟨[]⟩ 0 100 1 = (-1, ⟨[]⟩) ∧
    sys_munmap ⟨[]⟩ 0 100 = (-1, ⟨[]⟩) :=
  sys_mmap_munmap_end_alignment ⟨[]⟩ 0 100 1 (by decide)

/-- Helper: the heap pop yields `none` exactly on the empty queue. -/
theorem popGreatest_eq_none (l : List TCB) :
    popGreatest l = none ↔ l = [] := by
  cases l with
  | nil => simp [popGreatest]
  | cons t rest =>
    rw [popGreatest]
    cases hr : popGreatest rest with
    | none => simp
    | some p =>
      obtain ⟨m, r⟩ := p
      by_cases h : heapElemLt t m = true <;> simp [h]

/-- Helper: the heap pop returns an element of the queue whose `pass` is
least (the `HeapElement` order is the reversed `pass` order, so the heap's
greatest element has the least pass), and the remaining queue is the rest
of the original. -/
theorem popGreatest_spec (l : List TCB) (t : TCB) (r : List TCB)
    (h : popGreatest l = some (t, r)) :
    t ∈ l ∧ (∀ u ∈ l, t.pass ≤ u.pass) ∧ l.Perm (t :: r) := by
  induction l generalizing t r with
  | nil => simp [popGreatest] at h
  | cons a rest ih =>
    rw [popGreatest] at h
    cases hr : popGreatest rest with
    | none =>
      rw [hr] at h
      have hrest : rest = [] := (popGreatest_eq_none rest).mp hr
      subst hrest
      simp only [Option.some.injEq, Prod.mk.injEq] at h
      obtain ⟨h1, h2⟩ := h
      subst h1
      subst h2
      refine ⟨List.mem_singleton_self a, ?_, List.Perm.refl _⟩
      intro u hu
      rw [List.mem_singleton] at hu
      subst hu
      exact le_refl _
    | some p =>
      obtain ⟨mx, r'⟩ := p
      rw [hr] at h
      dsimp only at h
      obtain ⟨hmem, hmin, hperm⟩ := ih mx r' hr
      by_cases hlt : heapElemLt a mx = true
      · rw [if_pos hlt] at h
        simp only [Option.some.injEq, Prod.mk.injEq] at h
        obtain ⟨h1, h2⟩ := h
        have hlt' : mx.pass < a.pass := by
          simpa [heapElemLt, Pass.lt] using hlt
        refine ⟨?_, ?_, ?_⟩
        · rw [← h1]
          exact List.mem_cons_of_mem a hmem
        · rw [← h1]
          intro u hu
          rw [List.mem_cons] at hu
          rcases hu with hu | hu
          · subst hu
            omega
          · exact hmin u hu
        · rw [← h1, ← h2]
          exact List.Perm.trans (List.Perm.cons a hperm) (List.Perm.swap mx a r')
      · rw [if_neg hlt] at h
        simp only [Option.some.injEq, Prod.mk.injEq] at h
        obtain ⟨h1, h2⟩ := h
        have hle : a.pass ≤ mx.pass := by
          simp only [heapElemLt, Pass.lt, decide_eq_true_eq] at hlt
          omega
        refine ⟨?_, ?_, ?_⟩
        · rw [← h1]
          exact List.mem_cons_self a rest
        · rw [← h1]
          intro u hu
          rw [List.mem_cons] at hu
          rcases hu with hu | hu
          · subst hu
            exact le_refl _
          · exact le_trans hle (hmin u hu)
        · rw [← h1, ← h2]

/-- `C1`: `TaskManager.fetch` removes and returns a task of least `pass`
(or nothing exactly when the queue is empty), and `TaskManager.add` just
inserts, so a fetch after an add still returns a task of least `pass`
among all tasks then in the queue. -/
theorem taskManager_fetch_min (m : TaskManager) :
    (m.fetch = none ↔ m.ready_queue = []) ∧
    (∀ t m', m.fetch = some (t, m') →
      t ∈ m.ready_queue ∧
      (∀ u ∈ m.ready_queue, t.pass ≤ u.pass) ∧
      m.ready_queue.Perm (t :: m'.ready_queue)) ∧
    (∀ u t m', (m.add u).fetch = some (t, m') →
      t.pass ≤ u.pass ∧ ∀ v ∈ m.ready_queue, t.pass ≤ v.pass) := by
  have key : ∀ (q : TaskManager) (t : TCB) (m' : TaskManager),
      q.fetch = some (t, m') →
      t ∈ q.ready_queue ∧ (∀ u ∈ q.ready_queue, t.pass ≤ u.pass) ∧
      q.ready_queue.Perm (t :: m'.ready_queue) := by
    intro q t m' h
    rw [TaskManager.fetch] at h
    cases hp : popGreatest q.ready_queue with
    | none =>
      rw [hp] at h
      simp at h
    | some p =>
      obtain ⟨t', r⟩ := p
      rw [hp] at h
      simp only [Option.map_some', Option.some.injEq, Prod.mk.injEq] at h
      obtain ⟨h1, h2⟩ := h
      obtain ⟨hmem, hmin, hperm⟩ := popGreatest_spec _ t' r hp
      refine ⟨?_, ?_, ?_⟩
      · rw [← h1]
        exact hmem
      · rw [← h1]
        exact hmin
      · rw [← h1, ← h2]
        exact hperm
  refine ⟨?_, key m, ?_⟩
  · rw [TaskManager.fetch, Option.map_eq_none', popGreatest_eq_none]
  · intro u t m' h
    obtain ⟨hmem, hmin, hperm⟩ := key (m.add u) t m' h
    exact ⟨hmin u (List.mem_cons_self u _),
           fun v hv => hmin v (List.mem_cons_of_mem u hv)⟩

theorem taskManager_fetch_min_witness :
    sampleTCB 2 3 ∈ [sampleTCB 1 10, sampleTCB 2 3] ∧
    (∀ u ∈ [sampleTCB 1 10, sampleTCB 2 3], (sampleTCB 2 3).pass ≤ u.pass) ∧
    ([sampleTCB 1 10, sampleTCB 2 3]).Perm (sampleTCB 2 3 :: [sampleTCB 1 10]) :=
  (taskManager_fetch_min ⟨[sampleTCB 1 10, sampleTCB 2 3]⟩).2.1
    (sampleTCB 2 3) ⟨[sampleTCB 1 10]⟩ (by decide)

/-- `C3`: `sys_fork` pushes onto the ready queue a child whose saved
trap-context register x[10] is 0 and whose pid is the fresh pid, and
returns that pid (so the child's first observed return value is 0 and the
parent's is the child's pid). -/
theorem sys_fork_spec (k : Kernel) (h32 : k.current.trap_x.length = 32) :
    ∃ child : TCB,
      (sys_fork k).2.manager.ready_queue = child :: k.manager.ready_queue ∧
      child.trap_x[10]? = some 0 ∧
      child.pid = k.next_pid ∧
      (sys_fork k).1 = (child.pid : Int) ∧
      child.task_status = .Ready := by
  refine ⟨{ k.current.fork k.next_pid with
            trap_x := (k.current.fork k.next_pid).trap_x.set 10 0 },
          rfl, ?_, rfl, rfl, rfl⟩
  have hx : (k.current.fork k.next_pid).trap_x = k.current.trap_x := rfl
  show ((k.current.fork k.next_pid).trap_x.set 10 0)[10]? = some 0
  rw [hx]
  exact List.getElem?_set_eq_of_lt 0 (by omega)

theorem sys_fork_spec_witness :
    ∃ child : TCB,
      (sys_fork ⟨sampleTCB 1 0, ⟨[]⟩, 7⟩).2.manager.ready_queue =
        child :: ([] : List TCB) ∧
      child.trap_x[10]? = some 0 ∧
      child.pid = 7 ∧
      (sys_fork ⟨sampleTCB 1 0, ⟨[]⟩, 7⟩).1 = (child.pid : Int) ∧
      child.task_status = .Ready :=
  sys_fork_spec ⟨sampleTCB 1 0, ⟨[]⟩, 7⟩ (by decide)

/-- `C7`: `sys_exec` and `sys_spawn` return -1 exactly when the loader
cannot locate the program, in which case they change nothing; on success
`sys_exec` replaces the current task in place (same pid, address space
rebuilt from the image) and returns 0, while `sys_spawn` enqueues a new
child built from the image (not a copy of the parent's address space) and
returns its fresh pid. -/
theorem sys_exec_spawn_spec (ld : Loader) (k : Kernel) (path : String) :
    ((sys_exec ld k path).1 = -1 ↔ get_app_data_by_name ld path = none) ∧
    ((sys_spawn ld k path).1 = -1 ↔ get_app_data_by_name ld path = none) ∧
    (get_app_data_by_name ld path = none →
      sys_exec ld k path = (-1, k) ∧ sys_spawn ld k path = (-1, k)) ∧
    (∀ data, get_app_data_by_name ld path = some data →
      (sys_exec ld k path).1 = 0 ∧
      (sys_exec ld k path).2.current.pid = k.current.pid ∧
      (sys_exec ld k path).2.current.memory = .fromImage data ∧
      (sys_exec ld k path).2.manager = k.manager ∧
      ∃ child : TCB,
        (sys_spawn ld k path).2.manager.ready_queue =
          child :: k.manager.ready_queue ∧
        child.memory = .fromImage data ∧
        child.pid = k.next_pid ∧
        (sys_spawn ld k path).1 = (child.pid : Int)) := by
  have hE : ∀ data, get_app_data_by_name ld path = some data →
      sys_exec ld k path = (0, { k with current := k.current.exec data }) := by
    intro data hd
    unfold sys_exec
    rw [hd]
  have hS : ∀ data, get_app_data_by_name ld path = some data →
      sys_spawn ld k path =
        (((k.current.spawn data k.next_pid).pid : Int),
         { k with manager := k.manager.add (k.current.spawn data k.next_pid),
                  next_pid := k.next_pid + 1 }) := by
    intro data hd
    unfold sys_spawn
    rw [hd]
  cases hl : get_app_data_by_name ld path with
  | none =>
    have hE0 : sys_exec ld k path = (-1, k) := by
      unfold sys_exec
      rw [hl]
    have hS0 : sys_spawn ld k path = (-1, k) := by
      unfold sys_spawn
      rw [hl]
    rw [hE0, hS0]
    exact ⟨by simp, by simp, fun _ => ⟨rfl, rfl⟩,
           fun data hd => absurd hd (by simp)⟩
  | some data =>
    rw [hE data hl, hS data hl]
    refine ⟨by simp, ?_, fun h => absurd h (by simp [hl]), fun d hd => ?_⟩
    · constructor
      · intro h
        exfalso
        omega
      · intro h
        exact Option.noConfusion h
    · have hd' : d = data := by
        injection hd with h
        exact h.symm
      subst hd'
      exact ⟨rfl, rfl, rfl, rfl, _, rfl, rfl, rfl, rfl⟩

theorem sys_exec_spawn_spec_witness :
    sys_exec ⟨[("a", 42)]⟩ ⟨sampleTCB 1 0, ⟨[]⟩, 7⟩ "b" =
      (-1, ⟨sampleTCB 1 0, ⟨[]⟩, 7⟩) ∧
    sys_spawn ⟨[("a", 42)]⟩ ⟨sampleTCB 1 0, ⟨[]⟩, 7⟩ "b" =
      (-1, ⟨sampleTCB 1 0, ⟨[]⟩, 7⟩) :=
  (sys_exec_spawn_spec ⟨[("a", 42)]⟩ ⟨sampleTCB 1 0, ⟨[]⟩, 7⟩ "b").2.2.1
    (by decide)

/-- `C8`: a dispatch-loop iteration that fetches a task marks it Running,
stamps `start_time` and sets `started` only when `started` was false (so
`start_time` is written at most once, on the first dispatch), increments
`pass` by the stride `BIG_STRIDE / prio` on every dispatch, and installs
the task as `current` before the context swap. -/
theorem run_tasks_step_spec (p : Processor) (m : TaskManager) (now : Nat)
    (t : TCB) (m' : TaskManager) (hf : m.fetch = some (t, m')) :
    ∃ t' : TCB,
      run_tasks_step p m now = (⟨some t'⟩, m') ∧
      t'.task_status = .Running ∧
      t'.started = true ∧
      (t.started = true → t'.start_time = t.start_time) ∧
      (t.started = false → t'.start_time = now) ∧
      t'.pass = (t.pass + BIG_STRIDE / t.prio) % USIZE_MOD ∧
      t'.prio = t.prio ∧
      t'.pid = t.pid := by
  unfold run_tasks_step
  rw [hf]
  dsimp only
  by_cases hs : t.started = true
  · rw [if_neg (by simp [hs])]
    refine ⟨{ t with
      task_status := .Running
      pass := Pass.stride t.pass t.prio }, rfl, rfl, hs, fun _ => rfl,
      fun h => absurd hs (by simp [h]), rfl, rfl, rfl⟩
  · rw [Bool.not_eq_true] at hs
    rw [if_pos (by simp [hs])]
    refine ⟨{ t with
      task_status := .Running
      started := true
      start_time := now
      pass := Pass.stride t.pass t.prio }, rfl, rfl, rfl,
      fun h => absurd h (by simp [hs]), fun _ => rfl, rfl, rfl, rfl⟩

/-- Helper: a pid-preserving in-place update keeps the pid list. -/
theorem updTask_map_pid (s : Sys) (p : Nat) (f : KTask → KTask)
    (hf : ∀ t, (f t).pid = t.pid) :
    (s.updTask p f).tasks.map KTask.pid = s.tasks.map KTask.pid := by
  unfold Sys.updTask
  dsimp only
  rw [List.map_map]
  apply List.map_congr_left
  intro t ht
  by_cases h : t.pid = p <;> simp [h, hf]

/-- Helper: looking a pid up after an in-place pid-preserving update. -/
theorem taskOf_updTask (s : Sys) (p : Nat) (f : KTask → KTask)
    (hf : ∀ t, (f t).pid = t.pid) (q : Nat) :
    (s.updTask p f).taskOf q =
      (s.taskOf q).map fun t => if t.pid == p then f t else t := by
  unfold Sys.updTask Sys.taskOf
  dsimp only
  rw [List.find?_map]
  have hpred : ((fun t : KTask => t.pid == q) ∘ fun t => if t.pid == p then f t else t)
      = fun t : KTask => t.pid == q := by
    funext t
    by_cases h : t.pid = p <;> simp [Function.comp, h, hf]
  rw [hpred]

/-- Helper: `statusOf` is unchanged by a status- and pid-preserving
update. -/
theorem statusOf_updTask_of_status (s : Sys) (p : Nat) (f : KTask → KTask)
    (hf : ∀ t, (f t).pid = t.pid) (hst : ∀ t, (f t).status = t.status)
    (q : Nat) :
    (s.updTask p f).statusOf q = s.statusOf q := by
  unfold Sys.statusOf
  rw [taskOf_updTask s p f hf q]
  cases h : s.taskOf q with
  | none => rfl
  | some t =>
    simp only [Option.map_some']
    by_cases hp : t.pid = p <;> simp [hp, hst]

/-- Helper: `statusOf` at pids other than the updated one is unchanged. -/
theorem statusOf_updTask_ne (s : Sys) (p : Nat) (f : KTask → KTask)
    (hf : ∀ t, (f t).pid = t.pid) (q : Nat) (hq : q ≠ p) :
    (s.updTask p f).statusOf q = s.statusOf q := by
  unfold Sys.statusOf
  rw [taskOf_updTask s p f hf q]
  cases h : s.taskOf q with
  | none => rfl
  | some t =>
    have h' : s.tasks.find? (fun u => u.pid == q) = some t := h
    have hpq := List.find?_some h'
    simp only [beq_iff_eq] at hpq
    simp [hpq, hq]

/-- Helper: `statusOf` at the updated pid. -/
theorem statusOf_updTask_self (s : Sys) (p : Nat) (f : KTask → KTask)
    (hf : ∀ t, (f t).pid = t.pid) :
    (s.updTask p f).statusOf p = (s.taskOf p).map fun t => (f t).status := by
  unfold Sys.statusOf
  rw [taskOf_updTask s p f hf p]
  cases h : s.taskOf p with
  | none => rfl
  | some t =>
    have h' : s.tasks.find? (fun u => u.pid == p) = some t := h
    have hpq := List.find?_some h'
    simp only [beq_iff_eq] at hpq
    simp [hpq]

/-- Helper: `childrenOcc` is unchanged by a children-preserving update. -/
theorem childrenOcc_updTask_of_children (s : Sys) (p : Nat) (f : KTask → KTask)
    (hch : ∀ t, (f t).children = t.children) (q : Nat) :
    childrenOcc (s.updTask p f) q = childrenOcc s q := by
  unfold childrenOcc Sys.updTask
  dsimp only
  rw [List.map_map]
  congr 1
  apply List.map_congr_left
  intro t ht
  by_cases h : t.pid = p <;> simp [h, hch]

/-- Helper: `childrenOcc` never grows under an update that only shrinks
`children` vectors. -/
theorem childrenOcc_updTask_le (s : Sys) (p : Nat) (f : KTask → KTask)
    (hch : ∀ t, ((f t).children).Sublist t.children) (q : Nat) :
    childrenOcc (s.updTask p f) q ≤ childrenOcc s q := by
  unfold childrenOcc Sys.updTask
  dsimp only
  rw [List.map_map]
  apply List.sum_le_sum
  intro t ht
  by_cases h : t.pid = p
  · have hred : (if (t.pid == p) = true then f t else t) = f t := by simp [h]
    simp only [Function.comp_apply, hred]
    exact (hch t).count_le q
  · have hred : (if (t.pid == p) = true then f t else t) = t := by simp [h]
    simp only [Function.comp_apply, hred]
    exact le_refl _

/-- Helper: a pid that has a status is registered, hence below
`next_pid`. -/
theorem statusOf_lt_next (s : Sys) (hInv : SysInv s) (p : Nat)
    (st : TaskStatus) (h : s.statusOf p = some st) : p < s.next_pid := by
  unfold Sys.statusOf at h
  cases ht : s.taskOf p with
  | none => rw [ht] at h; cases h
  | some t =>
    have ht' : s.tasks.find? (fun u => u.pid == p) = some t := ht
    have hm : t ∈ s.tasks := List.mem_of_find?_eq_some ht'
    have hq := List.find?_some ht'
    simp only [beq_iff_eq] at hq
    have := hInv.fresh t hm
    omega

/-- Helper: unfolding `statusOf` into the registry entry. -/
theorem statusOf_eq_some_iff (s : Sys) (q : Nat) (st : TaskStatus) :
    s.statusOf q = some st ↔ ∃ t, s.taskOf q = some t ∧ t.status = st := by
  unfold Sys.statusOf
  cases ht : s.taskOf q <;> simp

/-- Helper: the current pid is not in the ready queue (it is Running,
ready pids are Ready). -/
theorem cur_not_mem_ready (s : Sys) (hInv : SysInv s) (p : Nat)
    (hc : s.cur = some p) : p ∉ s.ready := by
  intro hmem
  have h1 := hInv.readyStatus p hmem
  have h2 := hInv.curStatus p hc
  rw [h1] at h2
  simp at h2

/-- Helper: a Zombie pid is not in the ready queue. -/
theorem zombie_not_mem_ready (s : Sys) (hInv : SysInv s) (p : Nat)
    (hz : s.statusOf p = some .Zombie) : p ∉ s.ready := by
  intro hmem
  have h1 := hInv.readyStatus p hmem
  rw [h1] at hz
  simp at hz

/-- Helper: a sum of indicator values is a `countP`. -/
theorem sum_map_ite_one (l : List KTask) (p : KTask → Bool) :
    (l.map fun t => if p t then 1 else 0).sum = l.countP p := by
  induction l with
  | nil => rfl
  | cons a rest ih =>
    rw [List.map_cons, List.sum_cons, List.countP_cons, ih]
    omega

/-- Helper: with no duplicate pids, at most one registry entry has a given
pid. -/
theorem countP_pid_le_one (l : List KTask)
    (hnd : (l.map KTask.pid).Nodup) (pp : Nat) :
    l.countP (fun t => t.pid == pp) ≤ 1 := by
  induction l with
  | nil => simp
  | cons a rest ih =>
    rw [List.map_cons, List.nodup_cons] at hnd
    obtain ⟨hna, hnd⟩ := hnd
    rw [List.countP_cons]
    by_cases hp : a.pid = pp
    · have h0 : rest.countP (fun t => t.pid == pp) = 0 := by
        rw [List.countP_eq_zero]
        intro t ht hcontra
        apply hna
        rw [List.mem_map]
        refine ⟨t, ht, ?_⟩
        simp only [beq_iff_eq] at hcontra
        omega
      rw [h0]
      simp [hp]
    · have hite : (if (a.pid == pp) = true then 1 else 0) = 0 := by simp [hp]
      rw [hite]
      have := ih hnd
      omega

/-- Helper: removing the occurrence at index `i` of a value occurring at
most once removes it from the list. -/
theorem not_mem_eraseIdx_of_count_le_one (l : List Nat) (i : Nat) (p : Nat)
    (h1 : l.count p ≤ 1) (hi : l[i]? = some p) : p ∉ l.eraseIdx i := by
  obtain ⟨hil, hig⟩ := List.getElem?_eq_some_iff.mp hi
  have hdrop : l.drop i = p :: l.drop (i + 1) := by
    rw [← List.getElem_cons_drop l i hil, hig]
  have hcount : l.count p =
      (l.take i).count p + 1 + (l.drop (i + 1)).count p := by
    conv_lhs => rw [← List.take_append_drop i l]
    rw [List.count_append, hdrop, List.count_cons]
    simp
    omega
  intro hmem
  rw [List.eraseIdx_eq_take_drop_succ, List.mem_append] at hmem
  have hpos : 1 ≤ (l.take i).count p + (l.drop (i + 1)).count p := by
    rcases hmem with hm | hm
    · have := List.count_pos_iff.mpr hm
      omega
    · have := List.count_pos_iff.mpr hm
      omega
  omega

/-- Helper: the four registry fields of the invariant survive any
pid-preserving, children-shrinking in-place update. -/
theorem invCore_updTask (s : Sys) (p : Nat) (f : KTask → KTask)
    (hInv : SysInv s) (hf : ∀ t, (f t).pid = t.pid)
    (hch : ∀ t, ((f t).children).Sublist t.children) :
    ((s.updTask p f).tasks.map KTask.pid).Nodup ∧
    (∀ t ∈ (s.updTask p f).tasks, t.pid < s.next_pid) ∧
    (∀ t ∈ (s.updTask p f).tasks, ∀ c ∈ t.children, c < s.next_pid) ∧
    (∀ q, childrenOcc (s.updTask p f) q ≤ 1) := by
  refine ⟨?_, ?_, ?_, ?_⟩
  · rw [updTask_map_pid s p f hf]
    exact hInv.nodupPids
  · intro t ht
    unfold Sys.updTask at ht
    dsimp only at ht
    obtain ⟨u, hu, rfl⟩ := List.mem_map.mp ht
    have hp : (if (u.pid == p) = true then f u else u).pid = u.pid := by
      by_cases hb : (u.pid == p) = true <;> simp [hb, hf]
    rw [hp]
    exact hInv.fresh u hu
  · intro t ht c hcm
    unfold Sys.updTask at ht
    dsimp only at ht
    obtain ⟨u, hu, rfl⟩ := List.mem_map.mp ht
    have hsub : ((if (u.pid == p) = true then f u else u).children).Sublist u.children := by
      by_cases hb : (u.pid == p) = true <;> simp [hb, hch]
    exact hInv.childFresh u hu c (hsub.subset hcm)
  · intro q
    exact le_trans (childrenOcc_updTask_le s p f hch q) (hInv.childOnce q)

/-- Helper: a pid-preserving, status-preserving, children-shrinking
in-place update preserves the whole invariant. -/
theorem sysInv_updTask_shrink (s : Sys) (p : Nat) (f : KTask → KTask)
    (hInv : SysInv s) (hf : ∀ t, (f t).pid = t.pid)
    (hst : ∀ t, (f t).status = t.status)
    (hch : ∀ t, ((f t).children).Sublist t.children) : SysInv (s.updTask p f) := by
  obtain ⟨h1, h2, h3, h4⟩ := invCore_updTask s p f hInv hf hch
  refine ⟨h1, h2, h3, h4, ?_, ?_, ?_⟩
  · intro q
    exact hInv.readyOnce q
  · intro q hq
    rw [statusOf_updTask_of_status s p f hf hst q]
    exact hInv.readyStatus q hq
  · intro q hq
    rw [statusOf_updTask_of_status s p f hf hst q]
    exact hInv.curStatus q hq

/-- Helper: `childrenOcc` over a registry with one task appended. -/
theorem childrenOcc_append_single (ts : List KTask) (r : List Nat)
    (c : Option Nat) (npid : Nat) (t0 : KTask) (q : Nat) :
    childrenOcc ⟨ts ++ [t0], r, c, npid⟩ q =
      childrenOcc ⟨ts, r, c, npid⟩ q + t0.children.count q := by
  unfold childrenOcc
  dsimp only
  rw [List.map_append, List.sum_append]
  simp

/-- Helper: `statusOf` over a registry with one task appended, when the
pid is already registered. -/
theorem statusOf_append_of_found (ts : List KTask) (r : List Nat)
    (c : Option Nat) (npid : Nat) (t0 : KTask) (q : Nat) (t : KTask)
    (h : List.find? (fun u => u.pid == q) ts = some t) :
    Sys.statusOf ⟨ts ++ [t0], r, c, npid⟩ q = some t.status := by
  unfold Sys.statusOf Sys.taskOf
  dsimp only
  rw [List.find?_append, h]
  rfl

/-- Helper: `statusOf` over a registry with one task appended, when the
pid is that of the appended task and was not yet registered. -/
theorem statusOf_append_of_missing (ts : List KTask) (r : List Nat)
    (c : Option Nat) (npid : Nat) (t0 : KTask) (q : Nat)
    (h : List.find? (fun u => u.pid == q) ts = none) (hq : t0.pid = q) :
    Sys.statusOf ⟨ts ++ [t0], r, c, npid⟩ q = some t0.status := by
  unfold Sys.statusOf Sys.taskOf
  dsimp only
  rw [List.find?_append, h]
  rw [List.find?_cons_of_pos _ (by simp [hq])]
  rfl

/-- Helper: the explicit successor state of a spawn. -/
theorem spawnChild_eq (s : Sys) (pp : Nat) (hc : s.cur = some pp) :
    s.spawnChild = some
      { tasks := (s.tasks.map fun t =>
          if t.pid == pp then { t with children := t.children ++ [s.next_pid] }
          else t) ++ [⟨s.next_pid, .Ready, []⟩]
        ready := s.ready ++ [s.next_pid]
        cur := some pp
        next_pid := s.next_pid + 1 } := by
  unfold Sys.spawnChild Sys.updTask
  rw [hc]

/-- Helper: the spawn transition preserves the invariant. -/
theorem sysInv_spawn (s s' : Sys) (hInv : SysInv s)
    (h : s.spawnChild = some s') : SysInv s' := by
  cases hc : s.cur with
  | none =>
    unfold Sys.spawnChild at h
    rw [hc] at h
    cases h
  | some pp =>
    rw [spawnChild_eq s pp hc] at h
    injection h with h
    subst h
    have hpm : (s.tasks.map fun t =>
        if t.pid == pp then { t with children := t.children ++ [s.next_pid] }
        else t).map KTask.pid = s.tasks.map KTask.pid :=
      updTask_map_pid s pp _ (fun t => rfl)
    refine ⟨?_, ?_, ?_, ?_, ?_, ?_, ?_⟩
    · rw [List.map_append, hpm]
      simp only [List.map_cons, List.map_nil]
      rw [List.nodup_append]
      refine ⟨hInv.nodupPids, by simp, ?_⟩
      rw [List.disjoint_singleton]
      intro hmem
      obtain ⟨t, ht, hpt⟩ := List.mem_map.mp hmem
      have := hInv.fresh t ht
      omega
    · intro t ht
      dsimp only at ht ⊢
      rw [List.mem_append] at ht
      rcases ht with ht | ht
      · obtain ⟨u, hu, rfl⟩ := List.mem_map.mp ht
        have hpid : (if u.pid == pp then
            { u with children := u.children ++ [s.next_pid] } else u).pid
            = u.pid := by
          by_cases hb : u.pid = pp <;> simp [hb]
        rw [hpid]
        have := hInv.fresh u hu
        omega
      · rw [List.mem_singleton] at ht
        subst ht
        exact Nat.lt_succ_self _
    · intro t ht c hcm
      dsimp only at ht ⊢
      rw [List.mem_append] at ht
      rcases ht with ht | ht
      · obtain ⟨u, hu, rfl⟩ := List.mem_map.mp ht
        by_cases hb : u.pid = pp
        · have hch : (if u.pid == pp then
              { u with children := u.children ++ [s.next_pid] } else u).children
              = u.children ++ [s.next_pid] := by simp [hb]
          rw [hch] at hcm
          rw [List.mem_append] at hcm
          rcases hcm with hcm | hcm
          · have := hInv.childFresh u hu c hcm
            omega
          · rw [List.mem_singleton] at hcm
            omega
        · have hch : (if u.pid == pp then
              { u with children := u.children ++ [s.next_pid] } else u).children
              = u.children := by simp [hb]
          rw [hch] at hcm
          have := hInv.childFresh u hu c hcm
          omega
      · rw [List.mem_singleton] at ht
        subst ht
        simp at hcm
    · intro q
      rw [childrenOcc_append_single]
      simp only [List.count_nil, Nat.add_zero]
      by_cases hq : q = s.next_pid
      · subst hq
        have heq : childrenOcc ⟨s.tasks.map fun t =>
            if t.pid == pp then { t with children := t.children ++ [s.next_pid] }
            else t, s.ready ++ [s.next_pid], some pp, s.next_pid + 1⟩ s.next_pid
            = s.tasks.countP (fun t => t.pid == pp) := by
          unfold childrenOcc
          dsimp only
          rw [List.map_map]
          rw [List.map_congr_left ?_, sum_map_ite_one s.tasks (fun t => t.pid == pp)]
          intro u hu
          have hnotin : s.next_pid ∉ u.children := by
            intro hm
            have := hInv.childFresh u hu _ hm
            omega
          by_cases hb : u.pid = pp
          · simp [Function.comp, hb, List.count_append, List.count_cons,
                  List.count_eq_zero_of_not_mem hnotin]
          · simp [Function.comp, hb, List.count_eq_zero_of_not_mem hnotin]
        rw [heq]
        exact countP_pid_le_one s.tasks hInv.nodupPids pp
      · have heq : childrenOcc ⟨s.tasks.map fun t =>
            if t.pid == pp then { t with children := t.children ++ [s.next_pid] }
            else t, s.ready ++ [s.next_pid], some pp, s.next_pid + 1⟩ q
            = childrenOcc s q := by
          unfold childrenOcc
          dsimp only
          rw [List.map_map]
          congr 1
          apply List.map_congr_left
          intro u hu
          by_cases hb : u.pid = pp
          · simp [Function.comp, hb, List.count_append, List.count_cons, hq]
          · simp [Function.comp, hb]
        rw [heq]
        exact hInv.childOnce q
    · intro q
      show (s.ready ++ [s.next_pid]).count q ≤ 1
      rw [List.count_append]
      by_cases hq : q = s.next_pid
      · subst hq
        have h0 : s.ready.count s.next_pid = 0 := by
          rw [List.count_eq_zero]
          intro hmem
          have hst := hInv.readyStatus _ hmem
          have := statusOf_lt_next s hInv _ _ hst
          omega
        rw [h0]
        simp [List.count_cons]
      · have h1 : ([s.next_pid] : List Nat).count q = 0 := by
          rw [List.count_eq_zero]
          simp
          omega
        rw [h1]
        have := hInv.readyOnce q
        omega
    · intro q hq
      rw [List.mem_append] at hq
      rcases hq with hq | hq
      · have hready := hInv.readyStatus q hq
        obtain ⟨t, ht, hts⟩ := (statusOf_eq_some_iff s q _).mp hready
        have ht' : s.tasks.find? (fun u => u.pid == q) = some t := ht
        have hfound : List.find? (fun u => u.pid == q)
            (s.tasks.map fun t =>
              if t.pid == pp then { t with children := t.children ++ [s.next_pid] }
              else t) = some (if t.pid == pp then
                { t with children := t.children ++ [s.next_pid] } else t) := by
          rw [List.find?_map]
          have hpred : ((fun u : KTask => u.pid == q) ∘ fun t =>
              if t.pid == pp then { t with children := t.children ++ [s.next_pid] }
              else t) = fun u : KTask => u.pid == q := by
            funext u
            by_cases hb : u.pid = pp <;> simp [Function.comp, hb]
          rw [hpred, ht']
          rfl
        rw [statusOf_append_of_found _ _ _ _ _ _ _ hfound]
        have hst : (if t.pid == pp then
            { t with children := t.children ++ [s.next_pid] } else t).status
            = t.status := by
          by_cases hb : t.pid = pp <;> simp [hb]
        rw [hst, hts]
      · rw [List.mem_singleton] at hq
        subst hq
        have hnone : List.find? (fun u => u.pid == s.next_pid)
            (s.tasks.map fun t =>
              if t.pid == pp then { t with children := t.children ++ [s.next_pid] }
              else t) = none := by
          rw [List.find?_eq_none]
          intro t ht
          obtain ⟨u, hu, rfl⟩ := List.mem_map.mp ht
          have hfr := hInv.fresh u hu
          have hpid : (if u.pid == pp then
              { u with children := u.children ++ [s.next_pid] } else u).pid
              = u.pid := by
            by_cases hb : u.pid = pp <;> simp [hb]
          rw [hpid]
          simp
          omega
        rw [statusOf_append_of_missing _ _ _ _ _ _ hnone rfl]
    · intro q hq
      injection hq with hq
      subst hq
      have hcurst := hInv.curStatus pp hc
      obtain ⟨t, ht, hts⟩ := (statusOf_eq_some_iff s pp _).mp hcurst
      have ht' : s.tasks.find? (fun u => u.pid == pp) = some t := ht
      have hfound : List.find? (fun u => u.pid == pp)
          (s.tasks.map fun t =>
            if t.pid == pp then { t with children := t.children ++ [s.next_pid] }
            else t) = some (if t.pid == pp then
              { t with children := t.children ++ [s.next_pid] } else t) := by
        rw [List.find?_map]
        have hpred : ((fun u : KTask => u.pid == pp) ∘ fun t =>
            if t.pid == pp then { t with children := t.children ++ [s.next_pid] }
            else t) = fun u : KTask => u.pid == pp := by
          funext u
          by_cases hb : u.pid = pp <;> simp [Function.comp, hb]
        rw [hpred, ht']
        rfl
      rw [statusOf_append_of_found _ _ _ _ _ _ _ hfound]
      have hst : (if t.pid == pp then
          { t with children := t.children ++ [s.next_pid] } else t).status
          = t.status := by
        by_cases hb : t.pid = pp <;> simp [hb]
      rw [hst, hts]

/-- Helper: the dispatch transition preserves the invariant. -/
theorem sysInv_dispatch (s : Sys) (i : Nat) (s' : Sys) (hInv : SysInv s)
    (h : s.dispatch i = some s') : SysInv s' := by
  unfold Sys.dispatch at h
  cases hc : s.cur with
  | some q => rw [hc] at h; cases h
  | none =>
    rw [hc] at h
    cases hp : s.ready[i]? with
    | none => rw [hp] at h; cases h
    | some p =>
      rw [hp] at h
      injection h with h
      subst h
      obtain ⟨h1, h2, h3, h4⟩ := invCore_updTask s p
        (fun t => { t with status := .Running }) hInv (fun t => rfl)
        (fun t => List.Sublist.refl _)
      have hmemp : p ∈ s.ready := List.getElem?_mem hp
      obtain ⟨pt, hpt, hpts⟩ :=
        (statusOf_eq_some_iff s p _).mp (hInv.readyStatus p hmemp)
      refine ⟨h1, h2, h3, h4, ?_, ?_, ?_⟩
      · intro q
        show (s.ready.eraseIdx i).count q ≤ 1
        exact le_trans ((List.eraseIdx_sublist s.ready i).count_le q)
          (hInv.readyOnce q)
      · intro q hq
        have hq0 : q ∈ s.ready.eraseIdx i := hq
        have hq' : q ∈ s.ready := (List.eraseIdx_sublist s.ready i).subset hq0
        have hqp : q ≠ p := by
          intro heq
          subst heq
          exact not_mem_eraseIdx_of_count_le_one s.ready i q
            (hInv.readyOnce q) hp hq0
        have h5 : (s.updTask p fun t =>
            { t with status := .Running }).statusOf q = some .Ready := by
          rw [statusOf_updTask_ne s p (fun t => { t with status := .Running }) (fun t => rfl) q hqp]
          exact hInv.readyStatus q hq'
        exact h5
      · intro q hq
        injection hq with hq
        subst hq
        have h5 : (s.updTask p fun t =>
            { t with status := .Running }).statusOf p = some .Running := by
          rw [statusOf_updTask_self s p (fun t => { t with status := .Running }) (fun t => rfl), hpt]
          rfl
        exact h5

/-- Helper: the yield transition preserves the invariant. -/
theorem sysInv_yield (s s' : Sys) (hInv : SysInv s)
    (h : s.yieldCur = some s') : SysInv s' := by
  unfold Sys.yieldCur at h
  cases hc : s.cur with
  | none => rw [hc] at h; cases h
  | some p =>
    rw [hc] at h
    injection h with h
    subst h
    obtain ⟨h1, h2, h3, h4⟩ := invCore_updTask s p
      (fun t => { t with status := .Ready }) hInv (fun t => rfl)
      (fun t => List.Sublist.refl _)
    have hnotin : p ∉ s.ready := cur_not_mem_ready s hInv p hc
    obtain ⟨pt, hpt, hpts⟩ :=
      (statusOf_eq_some_iff s p _).mp (hInv.curStatus p hc)
    refine ⟨h1, h2, h3, h4, ?_, ?_, ?_⟩
    · intro q
      show (s.ready ++ [p]).count q ≤ 1
      rw [List.count_append]
      by_cases hq : q = p
      · subst hq
        rw [List.count_eq_zero.mpr hnotin]
        simp [List.count_cons]
      · have hz1 : ([p] : List Nat).count q = 0 := by
          rw [List.count_eq_zero]
          simpa using hq
        rw [hz1]
        have := hInv.readyOnce q
        omega
    · intro q hq
      have hq0 : q ∈ s.ready ++ [p] := hq
      rw [List.mem_append] at hq0
      rcases hq0 with hq0 | hq0
      · have hqp : q ≠ p := fun heq => hnotin (heq ▸ hq0)
        have h5 : (s.updTask p fun t =>
            { t with status := .Ready }).statusOf q = some .Ready := by
          rw [statusOf_updTask_ne s p (fun t => { t with status := .Ready }) (fun t => rfl) q hqp]
          exact hInv.readyStatus q hq0
        exact h5
      · rw [List.mem_singleton] at hq0
        rw [hq0]
        have h5 : (s.updTask p fun t =>
            { t with status := .Ready }).statusOf p = some .Ready := by
          rw [statusOf_updTask_self s p (fun t => { t with status := .Ready }) (fun t => rfl), hpt]
          rfl
        exact h5
    · intro q hq
      exact Option.noConfusion hq

/-- Helper: the exit transition preserves the invariant. -/
theorem sysInv_exit (s s' : Sys) (hInv : SysInv s)
    (h : s.exitCur = some s') : SysInv s' := by
  unfold Sys.exitCur at h
  cases hc : s.cur with
  | none => rw [hc] at h; cases h
  | some p =>
    rw [hc] at h
    injection h with h
    subst h
    obtain ⟨h1, h2, h3, h4⟩ := invCore_updTask s p
      (fun t => { t with status := .Zombie }) hInv (fun t => rfl)
      (fun t => List.Sublist.refl _)
    have hnotin : p ∉ s.ready := cur_not_mem_ready s hInv p hc
    refine ⟨h1, h2, h3, h4, ?_, ?_, ?_⟩
    · intro q
      exact hInv.readyOnce q
    · intro q hq
      have hq' : q ∈ s.ready := hq
      have hqp : q ≠ p := fun heq => hnotin (heq ▸ hq')
      have h5 : (s.updTask p fun t =>
          { t with status := .Zombie }).statusOf q = some .Ready := by
        rw [statusOf_updTask_ne s p (fun t => { t with status := .Zombie }) (fun t => rfl) q hqp]
        exact hInv.readyStatus q hq'
      exact h5
    · intro q hq
      exact Option.noConfusion hq

/-- Helper: the reap transition preserves the invariant. -/
theorem sysInv_reap (s : Sys) (c : Nat) (s' : Sys) (hInv : SysInv s)
    (h : s.reap c = some s') : SysInv s' := by
  unfold Sys.reap at h
  cases hc : s.cur with
  | none => rw [hc] at h; cases h
  | some pp =>
    rw [hc] at h
    dsimp only at h
    cases hpt : s.taskOf pp with
    | none => rw [hpt] at h; cases h
    | some pt =>
      rw [hpt] at h
      dsimp only at h
      by_cases hcond : c ∈ pt.children ∧ s.statusOf c = some .Zombie
      · rw [if_pos hcond] at h
        injection h with h
        subst h
        have hInv1 : SysInv (s.updTask pp fun t =>
            { t with children := t.children.erase c }) :=
          sysInv_updTask_shrink s pp _ hInv (fun t => rfl) (fun t => rfl)
            (fun t => List.erase_sublist c t.children)
        exact sysInv_updTask_shrink _ c _ hInv1 (fun t => rfl) (fun t => rfl)
          (fun t => List.nil_sublist _)
      · rw [if_neg hcond] at h
        cases h

/-- Helper: every lifecycle transition preserves the invariant. -/
theorem sysInv_step (s s' : Sys) (hInv : SysInv s) (h : SysStep s s') :
    SysInv s' := by
  cases h with
  | spawn _ hs => exact sysInv_spawn _ _ hInv hs
  | dispatch _ _ hs => exact sysInv_dispatch _ _ _ hInv hs
  | yieldStep _ hs => exact sysInv_yield _ _ hInv hs
  | exitStep _ hs => exact sysInv_exit _ _ hInv hs
  | reapStep _ _ hs => exact sysInv_reap _ _ _ hInv hs

/-- Helper: the boot state satisfies the invariant. -/
theorem sysInv_init : SysInv initSys := by
  refine ⟨?_, ?_, ?_, ?_, ?_, ?_, ?_⟩
  · decide
  · intro t ht
    simp only [initSys, List.mem_singleton] at ht
    subst ht
    decide
  · intro t ht c hcm
    simp only [initSys, List.mem_singleton] at ht
    subst ht
    simp at hcm
  · intro q
    show childrenOcc initSys q ≤ 1
    unfold childrenOcc initSys
    simp
  · intro q
    show ([] : List Nat).count q ≤ 1
    simp
  · intro q hq
    simp [initSys] at hq
  · intro q hq
    simp only [initSys] at hq
    injection hq with hq
    subst hq
    decide

/-- Helper: every reachable state satisfies the invariant. -/
theorem sysInv_reachable (s : Sys) (h : SysReachable s) : SysInv s := by
  induction h with
  | refl => exact sysInv_init
  | tail _ hbc ih => exact sysInv_step _ _ ih hbc

/-- `C9`: in every reachable kernel state, when the current task holds a
Zombie child `c` in its `children` vector (the situation in which
`sys_waitpid` removes it and asserts `Arc::strong_count(&child) == 1`),
the owning references to `c` number exactly one — the parent's `children`
entry being removed — so the assertion never fails. -/
theorem waitpid_reap_strong_count (s : Sys) (hs : SysReachable s)
    (pp : Nat) (pt : KTask) (hcur : s.cur = some pp)
    (hpt : s.taskOf pp = some pt) (c : Nat) (hc : c ∈ pt.children)
    (hz : s.statusOf c = some .Zombie) : strongCount s c = 1 := by
  have hInv := sysInv_reachable s hs
  have hpt' : s.tasks.find? (fun u => u.pid == pp) = some pt := hpt
  have hge : 1 ≤ childrenOcc s c := by
    unfold childrenOcc
    have hmem : pt ∈ s.tasks := List.mem_of_find?_eq_some hpt'
    have h1 : 0 < pt.children.count c := List.count_pos_iff.mpr hc
    have h2 : pt.children.count c ∈ s.tasks.map fun t => t.children.count c :=
      List.mem_map.mpr ⟨pt, hmem, rfl⟩
    have := List.le_sum_of_mem h2
    omega
  have hle := hInv.childOnce c
  have hnr : s.ready.count c = 0 :=
    List.count_eq_zero.mpr (zombie_not_mem_ready s hInv c hz)
  have hppc : pp ≠ c := by
    intro heq
    have hrun := hInv.curStatus pp hcur
    rw [heq, hz] at hrun
    simp at hrun
  have hcc : curOcc s c = 0 := by
    unfold curOcc
    rw [hcur]
    rw [if_neg (by simp [hppc])]
  unfold strongCount
  omega

theorem waitpid_reap_strong_count_witness :
    strongCount ⟨[⟨0, .Running, [1]⟩, ⟨1, .Zombie, []⟩], [], some 0, 2⟩ 1
      = 1 := by
  have h1 : SysStep initSys
      ⟨[⟨0, .Running, [1]⟩, ⟨1, .Ready, []⟩], [1], some 0, 2⟩ :=
    SysStep.spawn _ _ (by decide)
  have h2 : SysStep ⟨[⟨0, .Running, [1]⟩, ⟨1, .Ready, []⟩], [1], some 0, 2⟩
      ⟨[⟨0, .Ready, [1]⟩, ⟨1, .Ready, []⟩], [1, 0], none, 2⟩ :=
    SysStep.yieldStep _ _ (by decide)
  have h3 : SysStep ⟨[⟨0, .Ready, [1]⟩, ⟨1, .Ready, []⟩], [1, 0], none, 2⟩
      ⟨[⟨0, .Ready, [1]⟩, ⟨1, .Running, []⟩], [0], some 1, 2⟩ :=
    SysStep.dispatch _ 0 _ (by decide)
  have h4 : SysStep ⟨[⟨0, .Ready, [1]⟩, ⟨1, .Running, []⟩], [0], some 1, 2⟩
      ⟨[⟨0, .Ready, [1]⟩, ⟨1, .Zombie, []⟩], [0], none, 2⟩ :=
    SysStep.exitStep _ _ (by decide)
  have h5 : SysStep ⟨[⟨0, .Ready, [1]⟩, ⟨1, .Zombie, []⟩], [0], none, 2⟩
      ⟨[⟨0, .Running, [1]⟩, ⟨1, .Zombie, []⟩], [], some 0, 2⟩ :=
    SysStep.dispatch _ 0 _ (by decide)
  have hreach : SysReachable
      ⟨[⟨0, .Running, [1]⟩, ⟨1, .Zombie, []⟩], [], some 0, 2⟩ :=
    Relation.ReflTransGen.tail
      (Relation.ReflTransGen.tail
        (Relation.ReflTransGen.tail
          (Relation.ReflTransGen.tail
            (Relation.ReflTransGen.tail Relation.ReflTransGen.refl h1) h2) h3)
        h4) h5
  exact waitpid_reap_strong_count _ hreach 0 ⟨0, .Running, [1]⟩ rfl
    (by decide) 1 (by decide) (by decide)

theorem run_tasks_step_spec_witness :
    ∃ t' : TCB,
      run_tasks_step ⟨none⟩ ⟨[sampleTCB 1 5]⟩ 100 = (⟨some t'⟩, ⟨[]⟩) ∧
      t'.task_status = .Running ∧
      t'.started = true ∧
      ((sampleTCB 1 5).started = true → t'.start_time = (sampleTCB 1 5).start_time) ∧
      ((sampleTCB 1 5).started = false → t'.start_time = 100) ∧
      t'.pass = ((sampleTCB 1 5).pass + BIG_STRIDE / (sampleTCB 1 5).prio) % USIZE_MOD ∧
      t'.prio = (sampleTCB 1 5).prio ∧
      t'.pid = (sampleTCB 1 5).pid :=
  run_tasks_step_spec ⟨none⟩ ⟨[sampleTCB 1 5]⟩ 100 (sampleTCB 1 5) ⟨[]⟩
    (by decide)

end OS5




